import Mathlib

/-!
Shallow embedding of the Viper compiler (`src/main.rs`): lexer, recursive
descent parser, variable collector and code generator, together with
theorems about the behaviour stated in the specification.

Modelling conventions:
* Rust `f64` literal values are modelled as exact rationals (`ℚ`); the
  lexer only builds numerals from digits and dots, and no property proved
  here depends on binary floating-point rounding.
* Rust panics (`panic!`, `unwrap`) are modelled as `Except.error` values.
* Character classes use the ASCII fragment (`Char.isAlpha`, `Char.isDigit`,
  `Char.isWhitespace`), matching Rust's behaviour on ASCII input.
* Loops whose Rust counterparts run until the cursor stops advancing are
  given an explicit fuel argument, instantiated at the wrapper with a bound
  that provably suffices; this keeps every definition computable by
  `decide`/`rfl`.
-/

namespace Viper

deriving instance DecidableEq for Except

/-- Tokens produced by the lexer (`enum Token`). -/
inductive Token where
  | identifier : String → Token
  | number : ℚ → Token
  | plus | minus | multiply | divide | assign
  | print | if_ | else_
  | lparen | rparen | lbrace | rbrace
  | eof
  deriving DecidableEq, Repr

/-- Lexer state (`struct Lexer`): the input character sequence and a cursor. -/
structure Lexer where
  input : List Char
  position : ℕ
  deriving DecidableEq, Repr

/-- `Lexer::new` -/
def Lexer.new (s : String) : Lexer := ⟨s.toList, 0⟩

/-- `Lexer::next_char` -/
def next_char (l : Lexer) : Option Char × Lexer :=
  if h : l.position < l.input.length then
    (some (l.input.get ⟨l.position, h⟩), { l with position := l.position + 1 })
  else
    (none, l)

/-- `Lexer::peek_char` -/
def peek_char (l : Lexer) : Option Char :=
  if h : l.position < l.input.length then some (l.input.get ⟨l.position, h⟩) else none

/-- Fuelled loop body of `Lexer::skip_whitespace`. -/
def skip_whitespace_fuel : ℕ → Lexer → Lexer
  | 0, l => l
  | fuel + 1, l =>
    match peek_char l with
    | some c => if c.isWhitespace then skip_whitespace_fuel fuel (next_char l).2 else l
    | none => l

/-- `Lexer::skip_whitespace`; the remaining input length bounds the number
of loop iterations, so it is used as the fuel. -/
def skip_whitespace (l : Lexer) : Lexer :=
  skip_whitespace_fuel (l.input.length - l.position) l

/-- Fuelled accumulation loop shared by the identifier and numeral branches
of `Lexer::next_token` (`while let Some(next) = self.peek_char() ...`). -/
def consume_while_fuel (p : Char → Bool) : ℕ → String → Lexer → String × Lexer
  | 0, acc, l => (acc, l)
  | fuel + 1, acc, l =>
    match peek_char l with
    | some c => if p c then consume_while_fuel p fuel (acc.push c) (next_char l).2 else (acc, l)
    | none => (acc, l)

/-- The accumulation loop with its sufficient fuel bound. -/
def consume_while (p : Char → Bool) (acc : String) (l : Lexer) : String × Lexer :=
  consume_while_fuel p (l.input.length - l.position) acc l

/-- Fatal compilation errors; every Rust `panic!` site is one constructor. -/
inductive CompileError where
  | unexpectedCharacter : Char → CompileError
  | malformedNumber : String → CompileError
  | unexpectedToken : Token → Token → CompileError
  | unexpectedTokenInTerm : Token → CompileError
  | unexpectedStatement : Token → CompileError
  | expectedIdentifier : CompileError
  | expectedComparisonEq : Token → CompileError
  | unsupportedOperator : String → CompileError
  | outOfFuel : CompileError
  deriving DecidableEq, Repr

/-- Decimal digits to a natural number. -/
def digits_to_nat (ds : List Char) : ℕ :=
  ds.foldl (fun a c => 10 * a + (c.toNat - 48)) 0

/-- `number.parse::<f64>()` on the digit-and-dot strings the lexer builds:
at most one dot, digits elsewhere; the value is the exact decimal rational. -/
def parse_number (s : List Char) : Option ℚ :=
  match s.splitOn '.' with
  | [w] => if w ≠ [] ∧ w.all Char.isDigit then some (digits_to_nat w) else none
  | [w, f] =>
    if w ≠ [] ∧ w.all Char.isDigit ∧ f.all Char.isDigit then
      some ((digits_to_nat w : ℚ) + (digits_to_nat f : ℚ) / (10 ^ f.length : ℚ))
    else none
  | _ => none

/-- `Lexer::next_token` -/
def next_token (l : Lexer) : Except CompileError (Token × Lexer) :=
  let l1 := skip_whitespace l
  match next_char l1 with
  | (some c, l2) =>
    if c.isAlpha then
      let (ident, l3) := consume_while Char.isAlphanum (String.singleton c) l2
      if ident = "print" then .ok (.print, l3)
      else if ident = "if" then .ok (.if_, l3)
      else if ident = "else" then .ok (.else_, l3)
      else .ok (.identifier ident, l3)
    else if c.isDigit then
      let (numText, l3) := consume_while (fun ch => ch.isDigit || ch = '.') (String.singleton c) l2
      match parse_number numText.toList with
      | some q => .ok (.number q, l3)
      | none => .error (.malformedNumber numText)
    else if c = '+' then .ok (.plus, l2)
    else if c = '-' then .ok (.minus, l2)
    else if c = '*' then .ok (.multiply, l2)
    else if c = '/' then .ok (.divide, l2)
    else if c = '=' then .ok (.assign, l2)
    else if c = '(' then .ok (.lparen, l2)
    else if c = ')' then .ok (.rparen, l2)
    else if c = '\x7b' then .ok (.lbrace, l2)
    else if c = '\x7d' then .ok (.rbrace, l2)
    else .error (.unexpectedCharacter c)
  | (none, l2) => .ok (.eof, l2)

/-- Fuelled driver that calls `next_token` repeatedly until `EOF`. -/
def tokenize_fuel : ℕ → Lexer → Except CompileError (List Token)
  | 0, _ => .ok []
  | fuel + 1, l =>
    match next_token l with
    | .error e => .error e
    | .ok (t, l') =>
      if t = .eof then .ok [.eof]
      else
        match tokenize_fuel fuel l' with
        | .error e => .error e
        | .ok ts => .ok (t :: ts)

/-- The full token stream of a lexer state; each non-`EOF` token strictly
advances the cursor, so `input.length + 1 - position` calls suffice. -/
def tokenize (l : Lexer) : Except CompileError (List Token) :=
  tokenize_fuel (l.input.length + 1 - l.position) l

/-- Abstract syntax tree (`enum ASTNode`). -/
inductive ASTNode where
  | assignment : String → ASTNode → ASTNode
  | binaryOp : ASTNode → String → ASTNode → ASTNode
  | number : ℚ → ASTNode
  | variable : String → ASTNode
  | print : ASTNode → ASTNode
  | if_ : ASTNode → List ASTNode → List ASTNode → ASTNode

mutual

/-- `ASTNode::collect_variables`; the Rust `&mut Vec<String>` accumulator is
threaded functionally. -/
def collect_variables : ASTNode → List String → List String
  | .assignment v _, vars => if v ∈ vars then vars else vars ++ [v]
  | .binaryOp l _ r, vars => collect_variables r (collect_variables l vars)
  | .if_ c tb eb, vars =>
    collect_variables_list eb (collect_variables_list tb (collect_variables c vars))
  | _, vars => vars

/-- The `for stmt in then_branch.iter().chain(else_branch.iter())` loop. -/
def collect_variables_list : List ASTNode → List String → List String
  | [], vars => vars
  | n :: ns, vars => collect_variables_list ns (collect_variables n vars)

end

/-- The loop in `main` collecting variables over the statement list,
starting from an empty vector. -/
def collect_forest (nodes : List ASTNode) : List String :=
  collect_variables_list nodes []

/-- Parser state (`struct Parser`): the lexer and one token of lookahead. -/
structure Parser where
  lexer : Lexer
  current_token : Token

/-- `Parser::new`: pull the first token (a lexer panic propagates). -/
def Parser.new (l : Lexer) : Except CompileError Parser :=
  match next_token l with
  | .ok (t, l') => .ok ⟨l', t⟩
  | .error e => .error e

/-- `Parser::eat` -/
def eat (t : Token) (p : Parser) : Except CompileError Parser :=
  if p.current_token = t then
    match next_token p.lexer with
    | .ok (t', l') => .ok ⟨l', t'⟩
    | .error e => .error e
  else .error (.unexpectedToken p.current_token t)

/-- `Parser::parse_term` -/
def parse_term (p : Parser) : Except CompileError (ASTNode × Parser) :=
  match p.current_token with
  | .number v =>
    match eat (.number v) p with
    | .ok p' => .ok (.number v, p')
    | .error e => .error e
  | .identifier name =>
    match eat (.identifier name) p with
    | .ok p' => .ok (.variable name, p')
    | .error e => .error e
  | t => .error (.unexpectedTokenInTerm t)

/-- The operator strings of the `while matches!(...)` loop head in
`Parser::parse_expression`. -/
def binop_string : Token → Option String
  | .plus => some "+"
  | .minus => some "-"
  | .multiply => some "*"
  | .divide => some "/"
  | _ => none

/-- The `while` loop of `Parser::parse_expression`, folding further terms
onto the accumulated left operand; fuelled (one unit per operator). -/
def parse_expression_loop : ℕ → ASTNode → Parser → Except CompileError (ASTNode × Parser)
  | 0, _, _ => .error .outOfFuel
  | fuel + 1, left, p =>
    match binop_string p.current_token with
    | none => .ok (left, p)
    | some op =>
      match eat p.current_token p with
      | .error e => .error e
      | .ok p1 =>
        match parse_term p1 with
        | .error e => .error e
        | .ok (right, p2) => parse_expression_loop fuel (.binaryOp left op right) p2

/-- `Parser::parse_expression` -/
def parse_expression (fuel : ℕ) (p : Parser) : Except CompileError (ASTNode × Parser) :=
  match parse_term p with
  | .error e => .error e
  | .ok (left, p1) => parse_expression_loop fuel left p1

/-- `Parser::parse_comparison` -/
def parse_comparison (fuel : ℕ) (p : Parser) : Except CompileError (ASTNode × Parser) :=
  match parse_expression fuel p with
  | .error e => .error e
  | .ok (left, p1) =>
    if p1.current_token = .assign then
      match eat .assign p1 with
      | .error e => .error e
      | .ok p2 =>
        if p2.current_token = .assign then
          match eat .assign p2 with
          | .error e => .error e
          | .ok p3 =>
            match parse_expression fuel p3 with
            | .error e => .error e
            | .ok (right, p4) => .ok (.binaryOp left "==" right, p4)
        else .error (.expectedComparisonEq p2.current_token)
    else .ok (left, p1)

/-- `Parser::parse_assignment` -/
def parse_assignment (fuel : ℕ) (p : Parser) : Except CompileError (ASTNode × Parser) :=
  match p.current_token with
  | .identifier name =>
    match eat (.identifier name) p with
    | .error e => .error e
    | .ok p1 =>
      match eat .assign p1 with
      | .error e => .error e
      | .ok p2 =>
        match parse_expression fuel p2 with
        | .error e => .error e
        | .ok (value, p3) => .ok (.assignment name value, p3)
  | _ => .error .expectedIdentifier

mutual

/-- `Parser::parse_statement`; the fuel decreases on every recursive call
and a sufficient amount is supplied by `parse_program`. -/
def parse_statement : ℕ → Parser → Except CompileError (ASTNode × Parser)
  | 0, _ => .error .outOfFuel
  | fuel + 1, p =>
    match p.current_token with
    | .if_ => parse_if fuel p
    | .print =>
      match eat .print p with
      | .error e => .error e
      | .ok p1 =>
        match eat .lparen p1 with
        | .error e => .error e
        | .ok p2 =>
          match parse_comparison (fuel + 1) p2 with
          | .error e => .error e
          | .ok (expr, p3) =>
            match eat .rparen p3 with
            | .error e => .error e
            | .ok p4 => .ok (.print expr, p4)
    | .identifier _ => parse_assignment (fuel + 1) p
    | t => .error (.unexpectedStatement t)

/-- `Parser::parse_if` -/
def parse_if : ℕ → Parser → Except CompileError (ASTNode × Parser)
  | 0, _ => .error .outOfFuel
  | fuel + 1, p =>
    match eat .if_ p with
    | .error e => .error e
    | .ok p1 =>
      match eat .lparen p1 with
      | .error e => .error e
      | .ok p2 =>
        match parse_comparison (fuel + 1) p2 with
        | .error e => .error e
        | .ok (condition, p3) =>
          match eat .rparen p3 with
          | .error e => .error e
          | .ok p4 =>
            match eat .lbrace p4 with
            | .error e => .error e
            | .ok p5 =>
              match parse_block fuel p5 with
              | .error e => .error e
              | .ok (then_branch, p6) =>
                match eat .rbrace p6 with
                | .error e => .error e
                | .ok p7 =>
                  if p7.current_token = .else_ then
                    match eat .else_ p7 with
                    | .error e => .error e
                    | .ok p8 =>
                      match eat .lbrace p8 with
                      | .error e => .error e
                      | .ok p9 =>
                        match parse_block fuel p9 with
                        | .error e => .error e
                        | .ok (else_branch, p10) =>
                          match eat .rbrace p10 with
                          | .error e => .error e
                          | .ok p11 => .ok (.if_ condition then_branch else_branch, p11)
                  else .ok (.if_ condition then_branch [], p7)

/-- `Parser::parse_block` -/
def parse_block : ℕ → Parser → Except CompileError (List ASTNode × Parser)
  | 0, _ => .error .outOfFuel
  | fuel + 1, p =>
    if p.current_token ≠ .rbrace ∧ p.current_token ≠ .eof then
      match parse_statement fuel p with
      | .error e => .error e
      | .ok (stmt, p1) =>
        match parse_block fuel p1 with
        | .error e => .error e
        | .ok (stmts, p2) => .ok (stmt :: stmts, p2)
    else .ok ([], p)

end

/-- The `while self.current_token != Token::EOF` loop of `Parser::parse`. -/
def parse_program_loop : ℕ → Parser → Except CompileError (List ASTNode × Parser)
  | 0, _ => .error .outOfFuel
  | fuel + 1, p =>
    if p.current_token ≠ .eof then
      match parse_statement fuel p with
      | .error e => .error e
      | .ok (stmt, p1) =>
        match parse_program_loop fuel p1 with
        | .error e => .error e
        | .ok (stmts, p2) => .ok (stmt :: stmts, p2)
    else .ok ([], p)

/-- `Parser::parse`, fuelled. -/
def parse_program (fuel : ℕ) (p : Parser) : Except CompileError (List ASTNode) :=
  match parse_program_loop fuel p with
  | .error e => .error e
  | .ok (nodes, _) => .ok nodes

/-- Code generator state (`struct CodeGenerator`): the label counter and
the lines written so far to the output file. -/
structure CodeGenState where
  label_counter : ℕ
  output : List String
  deriving DecidableEq, Repr

/-- `CodeGenerator::emit`: `writeln!` appends one line to the output. -/
def emit (instruction : String) (g : CodeGenState) : CodeGenState :=
  { g with output := g.output ++ [instruction] }

/-- A sequence of consecutive `CodeGenerator::emit` calls. -/
def emits (instructions : List String) (g : CodeGenState) : CodeGenState :=
  instructions.foldl (fun g i => emit i g) g

/-- `CodeGenerator::emit_header` -/
def emit_header (vars : List String) (g : CodeGenState) : CodeGenState :=
  emits
    (["section .bss"] ++
      vars.map (fun var => var ++ " resq 1") ++
      ["buffer resb 20",
       "section .data",
       "newline db 0xA, 0",
       "section .text",
       "global _start",
       "_start:"]) g

/-- `CodeGenerator::emit_footer` -/
def emit_footer (g : CodeGenState) : CodeGenState :=
  emits
    ["    mov rax, 60       ; syscall: exit",
     "    xor rdi, rdi      ; return code: 0",
     "    syscall",
     "; Subroutine to convert an integer in RAX to a string in the buffer",
     "int_to_string:",
     "    xor rdx, rdx              ; Clear rdx (remainder)",
     "    mov rbx, 10               ; Divisor for decimal system",
     "    add rcx, 20               ; Move pointer to the end of the buffer",
     "    dec rcx                   ; Reserve space for the last character",
     ".convert_loop:",
     "    xor rdx, rdx              ; Clear rdx before division",
     "    div rbx                   ; Divide rax by 10, remainder in rdx",
     "    add dl, '0'               ; Convert remainder to ASCII",
     "    mov [rcx], dl             ; Store the ASCII character in the buffer",
     "    dec rcx                   ; Move to the previous position in the buffer",
     "    test rax, rax             ; Check if quotient is 0",
     "    jnz .convert_loop         ; Repeat if not 0",
     "    inc rcx                   ; Adjust pointer to the start of the string",
     "    ret"] g

/-- `CodeGenerator::new_label` -/
def new_label (pre : String) (g : CodeGenState) : String × CodeGenState :=
  let c := g.label_counter + 1
  (pre ++ "_" ++ toString c, { g with label_counter := c })

/-- Truncation toward zero of a rational. -/
def rat_trunc (v : ℚ) : ℤ := if 0 ≤ v then ⌊v⌋ else ⌈v⌉

/-- Rust's `f64 as i64` cast on the rational value model: truncation toward
zero, saturating at the `i64` bounds. -/
def f64_as_i64 (v : ℚ) : ℤ :=
  max (-(2 ^ 63)) (min (2 ^ 63 - 1) (rat_trunc v))

mutual

/-- `CodeGenerator::generate` -/
def generate : ASTNode → CodeGenState → Except CompileError CodeGenState
  | .assignment var value, g =>
    match generate value g with
    | .error e => .error e
    | .ok g1 => .ok (emit ("    mov [" ++ var ++ "], rax") g1)
  | .binaryOp left op right, g =>
    match generate right g with
    | .error e => .error e
    | .ok g1 =>
      match generate left (emit "    push rax" g1) with
      | .error e => .error e
      | .ok g2 =>
        let g3 := emit "    pop rbx" g2
        if op = "+" then .ok (emit "    add rax, rbx" g3)
        else if op = "-" then .ok (emit "    sub rax, rbx" g3)
        else if op = "*" then .ok (emit "    imul rax, rbx" g3)
        else if op = "/" then .ok (emits ["    xor rdx, rdx", "    div rbx"] g3)
        else if op = "==" then
          .ok (emits ["    cmp rax, rbx", "    sete al", "    movzx rax, al"] g3)
        else .error (.unsupportedOperator op)
  | .number value, g =>
    .ok (emit ("    mov rax, " ++ toString (f64_as_i64 value)) g)
  | .variable name, g =>
    .ok (emit ("    mov rax, [" ++ name ++ "]") g)
  | .print expression, g =>
    match generate expression g with
    | .error e => .error e
    | .ok g1 =>
      .ok (emits
        ["    mov rcx, buffer",
         "    call int_to_string",
         "    mov rdx, buffer",
         "    add rdx, 20",
         "    sub rdx, rcx",
         "    mov rsi, rcx",
         "    mov rax, 1",
         "    mov rdi, 1",
         "    syscall",
         "    mov rsi, newline",
         "    mov rdx, 1",
         "    mov rax, 1",
         "    mov rdi, 1",
         "    syscall"] g1)
  | .if_ condition then_branch else_branch, g =>
    match generate condition g with
    | .error e => .error e
    | .ok g1 =>
      let g2 := emit "    cmp rax, 0" g1
      let (else_label, g3) := new_label "else" g2
      let (end_label, g4) := new_label "end_if" g3
      match generate_list then_branch (emit ("    je " ++ else_label) g4) with
      | .error e => .error e
      | .ok g5 =>
        let g6 := emit (else_label ++ ":") (emit ("    jmp " ++ end_label) g5)
        match generate_list else_branch g6 with
        | .error e => .error e
        | .ok g7 => .ok (emit (end_label ++ ":") g7)

/-- The statement loops (`for stmt in ...`, and `main`'s `for node in ast`). -/
def generate_list : List ASTNode → CodeGenState → Except CompileError CodeGenState
  | [], g => .ok g
  | n :: ns, g =>
    match generate n g with
    | .error e => .error e
    | .ok g1 => generate_list ns g1

end

/-- The whole `main` pipeline after reading the source text: lex, parse,
collect variables, emit header, bodies and footer.  An error anywhere
aborts the compilation with no output document. -/
def compile (fuel : ℕ) (source : String) : Except CompileError (List String) :=
  match Parser.new (Lexer.new source) with
  | .error e => .error e
  | .ok p =>
    match parse_program fuel p with
    | .error e => .error e
    | .ok ast =>
      let vars := collect_forest ast
      let g := emit_header vars ⟨0, []⟩
      match generate_list ast g with
      | .error e => .error e
      | .ok g1 => .ok (emit_footer g1).output

/-! ### Lexer cursor lemmas -/

theorem peek_char_lt {l : Lexer} {c : Char} (h : peek_char l = some c) :
    l.position < l.input.length := by
  by_contra hlt
  unfold peek_char at h
  rw [dif_neg hlt] at h
  exact Option.noConfusion h

theorem next_char_some {l : Lexer} (h : l.position < l.input.length) :
    next_char l = (some (l.input.get ⟨l.position, h⟩), { l with position := l.position + 1 }) := by
  unfold next_char
  rw [dif_pos h]

theorem next_char_none {l : Lexer} (h : ¬ l.position < l.input.length) :
    next_char l = (none, l) := by
  unfold next_char
  rw [dif_neg h]

theorem skip_whitespace_fuel_bounds (fuel : ℕ) :
    ∀ l : Lexer, (skip_whitespace_fuel fuel l).input = l.input ∧
      l.position ≤ (skip_whitespace_fuel fuel l).position ∧
      (l.position ≤ l.input.length →
        (skip_whitespace_fuel fuel l).position ≤ l.input.length) := by
  induction fuel with
  | zero => exact fun l => ⟨rfl, le_refl _, fun h => h⟩
  | succ n ih =>
    intro l
    unfold skip_whitespace_fuel
    cases hp : peek_char l with
    | none => exact ⟨rfl, le_refl _, fun h => h⟩
    | some c =>
      dsimp only
      by_cases hw : c.isWhitespace
      · have hlt := peek_char_lt hp
        rw [if_pos hw, next_char_some hlt]
        dsimp only
        obtain ⟨h1, h2, h3⟩ := ih { l with position := l.position + 1 }
        simp only at h1 h2 h3
        exact ⟨h1, by omega, fun _ => h3 (by omega)⟩
      · rw [if_neg hw]
        exact ⟨rfl, le_refl _, fun h => h⟩

theorem skip_whitespace_bounds (l : Lexer) :
    (skip_whitespace l).input = l.input ∧
      l.position ≤ (skip_whitespace l).position ∧
      (l.position ≤ l.input.length → (skip_whitespace l).position ≤ l.input.length) :=
  skip_whitespace_fuel_bounds _ l

theorem consume_while_fuel_bounds (p : Char → Bool) (fuel : ℕ) :
    ∀ (acc : String) (l : Lexer),
      (consume_while_fuel p fuel acc l).2.input = l.input ∧
      l.position ≤ (consume_while_fuel p fuel acc l).2.position ∧
      (l.position ≤ l.input.length →
        (consume_while_fuel p fuel acc l).2.position ≤ l.input.length) := by
  induction fuel with
  | zero => exact fun acc l => ⟨rfl, le_refl _, fun h => h⟩
  | succ n ih =>
    intro acc l
    unfold consume_while_fuel
    cases hp : peek_char l with
    | none => exact ⟨rfl, le_refl _, fun h => h⟩
    | some c =>
      dsimp only
      by_cases hc : p c
      · have hlt := peek_char_lt hp
        rw [if_pos hc, next_char_some hlt]
        dsimp only
        obtain ⟨h1, h2, h3⟩ := ih (acc.push c) { l with position := l.position + 1 }
        simp only at h1 h2 h3
        exact ⟨h1, by omega, fun _ => h3 (by omega)⟩
      · rw [if_neg hc]
        exact ⟨rfl, le_refl _, fun h => h⟩

theorem consume_while_bounds (p : Char → Bool) (acc : String) (l : Lexer) :
    (consume_while p acc l).2.input = l.input ∧
      l.position ≤ (consume_while p acc l).2.position ∧
      (l.position ≤ l.input.length → (consume_while p acc l).2.position ≤ l.input.length) :=
  consume_while_fuel_bounds p _ acc l

/-- A successful `next_token` call that does not produce `EOF` strictly
advances the cursor and stays inside the input. -/
theorem next_token_progress {l l' : Lexer} {t : Token}
    (h : next_token l = .ok (t, l')) (ht : t ≠ .eof) :
    l'.input = l.input ∧ l.position < l'.position ∧ l'.position ≤ l.input.length := by
  obtain ⟨hsi, hsp, -⟩ := skip_whitespace_bounds l
  simp only [next_token] at h
  by_cases h1 : (skip_whitespace l).position < (skip_whitespace l).input.length
  · rw [next_char_some h1] at h
    have hlen : (skip_whitespace l).input.length = l.input.length := by rw [hsi]
    dsimp only at h
    set c := (skip_whitespace l).input.get ⟨(skip_whitespace l).position, h1⟩ with hc
    by_cases ha : c.isAlpha
    · rw [if_pos ha] at h
      rcases hsplit : consume_while Char.isAlphanum (String.singleton c)
          { skip_whitespace l with position := (skip_whitespace l).position + 1 } with ⟨ident, l3⟩
      obtain ⟨hb1, hb2, hb3⟩ := consume_while_bounds Char.isAlphanum (String.singleton c)
        { skip_whitespace l with position := (skip_whitespace l).position + 1 }
      rw [hsplit] at h hb1 hb2 hb3
      simp only at h hb1 hb2 hb3
      have hb3' := hb3 (by omega)
      have hl3 : l3 = l' := by
        split_ifs at h <;>
          (simp only [Except.ok.injEq, Prod.mk.injEq] at h; exact h.2)
      subst hl3
      exact ⟨by rw [hb1, hsi], by omega, by omega⟩
    · rw [if_neg ha] at h
      by_cases hd : c.isDigit
      · rw [if_pos hd] at h
        rcases hsplit : consume_while (fun ch => ch.isDigit || ch = '.')
            (String.singleton c)
            { skip_whitespace l with position := (skip_whitespace l).position + 1 }
          with ⟨numText, l3⟩
        obtain ⟨hb1, hb2, hb3⟩ := consume_while_bounds (fun ch => ch.isDigit || ch = '.')
          (String.singleton c)
          { skip_whitespace l with position := (skip_whitespace l).position + 1 }
        rw [hsplit] at h hb1 hb2 hb3
        simp only at h hb1 hb2 hb3
        have hb3' := hb3 (by omega)
        cases hpn : parse_number numText.toList with
        | some q =>
          rw [hpn] at h
          simp only [Except.ok.injEq, Prod.mk.injEq] at h
          obtain ⟨-, hl3⟩ := h
          subst hl3
          exact ⟨by rw [hb1, hsi], by omega, by omega⟩
        | none =>
          rw [hpn] at h
          exact Except.noConfusion h
      · rw [if_neg hd] at h
        have hl2' : ({ skip_whitespace l with
              position := (skip_whitespace l).position + 1 } : Lexer) = l' →
            l'.input = l.input ∧ l.position < l'.position ∧ l'.position ≤ l.input.length := by
          intro he
          rw [← he]
          dsimp only
          exact ⟨hsi, by omega, by omega⟩
        split_ifs at h <;>
          first
          | (simp only [Except.ok.injEq, Prod.mk.injEq] at h; exact hl2' h.2)
          | exact Except.noConfusion h
  · rw [next_char_none h1] at h
    simp only [Except.ok.injEq, Prod.mk.injEq] at h
    exact absurd h.1.symm ht

/-! ### Lexer claims -/

theorem tokenize_fuel_eof (fuel : ℕ) :
    ∀ (l : Lexer) (ts : List Token),
      l.input.length + 1 - l.position ≤ fuel → l.position ≤ l.input.length →
      tokenize_fuel fuel l = .ok ts →
      ts ≠ [] ∧ ts.getLast? = some Token.eof ∧ ts.count Token.eof = 1 := by
  induction fuel with
  | zero => intro l ts hf hp h; omega
  | succ n ih =>
    intro l ts hf hp h
    unfold tokenize_fuel at h
    cases hnt : next_token l with
    | error e => rw [hnt] at h; exact Except.noConfusion h
    | ok tl =>
      obtain ⟨t, l'⟩ := tl
      rw [hnt] at h
      dsimp only at h
      by_cases ht : t = Token.eof
      · rw [if_pos ht] at h
        simp only [Except.ok.injEq] at h
        subst h
        exact ⟨by simp, by simp, by simp⟩
      · rw [if_neg ht] at h
        cases hrec : tokenize_fuel n l' with
        | error e => rw [hrec] at h; exact Except.noConfusion h
        | ok ts' =>
          rw [hrec] at h
          simp only [Except.ok.injEq] at h
          subst h
          obtain ⟨hi, hlt, hle⟩ := next_token_progress hnt ht
          obtain ⟨hne, hlast, hcount⟩ := ih l' ts' (by rw [hi]; omega) (by rw [hi]; omega) hrec
          refine ⟨by simp, ?_, ?_⟩
          · cases ts' with
            | nil => exact absurd rfl hne
            | cons a as => rw [List.getLast?_cons_cons]; exact hlast
          · rw [List.count_cons]
            simp only [hcount]
            have hts : ¬ (Token.eof = t) := fun he => ht he.symm
            simp [hts, ht]

/-- C8: for every lexer state inside its input, the token stream obtained by
repeated `next_token` calls is finite (`tokenize` is a total function), a
successful stream is nonempty and ends in exactly one terminal `EOF` token,
and every successful non-`EOF` call strictly advances the cursor while
staying inside the input (so each call consumes a nonempty, fresh span of
characters, and a fatal error aborts the stream). -/
theorem c8_token_stream_finite_single_eof :
    (∀ (l : Lexer) (ts : List Token), l.position ≤ l.input.length →
      tokenize l = .ok ts →
      ts ≠ [] ∧ ts.getLast? = some Token.eof ∧ ts.count Token.eof = 1) ∧
    (∀ (l l' : Lexer) (t : Token), next_token l = .ok (t, l') → t ≠ Token.eof →
      l.position < l'.position ∧ l'.position ≤ l.input.length ∧ l'.input = l.input) := by
  constructor
  · intro l ts hp h
    exact tokenize_fuel_eof _ l ts (le_refl _) hp h
  · intro l l' t h ht
    obtain ⟨hi, hlt, hle⟩ := next_token_progress h ht
    exact ⟨hlt, hle, hi⟩

/-- Witness for C8 on the concrete source text `"x = 1"`. -/
theorem c8_witness :
    [Token.identifier "x", Token.assign, Token.number 1, Token.eof] ≠ [] ∧
    [Token.identifier "x", Token.assign, Token.number 1, Token.eof].getLast? =
      some Token.eof ∧
    [Token.identifier "x", Token.assign, Token.number 1, Token.eof].count Token.eof = 1 :=
  c8_token_stream_finite_single_eof.1 (Lexer.new "x = 1") _ (by decide) (by decide)

/-- The general unexpected-character case of `next_token`. -/
theorem next_token_unexpected {l : Lexer} {c : Char}
    (hp : peek_char (skip_whitespace l) = some c)
    (ha : ¬ c.isAlpha) (hd : ¬ c.isDigit)
    (hm : c ∉ ['+', '-', '*', '/', '=', '(', ')', '\x7b', '\x7d']) :
    next_token l = .error (.unexpectedCharacter c) := by
  have h1 := peek_char_lt hp
  have hget : (skip_whitespace l).input.get ⟨(skip_whitespace l).position, h1⟩ = c := by
    unfold peek_char at hp
    rw [dif_pos h1] at hp
    exact Option.some.inj hp
  simp only [next_token]
  rw [next_char_some h1]
  dsimp only
  rw [hget]
  simp only [List.mem_cons, List.not_mem_nil, or_false, not_or] at hm
  obtain ⟨h₁, h₂, h₃, h₄, h₅, h₆, h₇, h₈, h₉⟩ := hm
  rw [if_neg ha, if_neg hd, if_neg h₁, if_neg h₂, if_neg h₃, if_neg h₄, if_neg h₅,
    if_neg h₆, if_neg h₇, if_neg h₈, if_neg h₉]

/-- C9: a character that is not whitespace, alphabetic, a digit or one of
the nine punctuation characters makes lexing fail fatally with an
unexpected-character error carrying that character; in particular compiling
`x = 5 & 3` fails identifying `&` and produces no output document. -/
theorem c9_unexpected_character_fatal :
    (∀ (l : Lexer) (c : Char),
      peek_char (skip_whitespace l) = some c →
      ¬ c.isWhitespace → ¬ c.isAlpha → ¬ c.isDigit →
      c ∉ ['+', '-', '*', '/', '=', '(', ')', '\x7b', '\x7d'] →
      next_token l = .error (.unexpectedCharacter c)) ∧
    compile 100 "x = 5 & 3" = .error (.unexpectedCharacter '&') := by
  constructor
  · intro l c hp _ ha hd hm
    exact next_token_unexpected hp ha hd hm
  · decide

/-- Witness for C9 at the one-character input `"&"`. -/
theorem c9_witness : next_token (Lexer.new "&") = .error (.unexpectedCharacter '&') :=
  c9_unexpected_character_fatal.1 (Lexer.new "&") '&'
    (by decide) (by decide) (by decide) (by decide) (by decide)

/-- C10: once the cursor is at or past the end of the input, `next_token`
returns `EOF` and leaves the lexer state unchanged, hence every subsequent
call returns `EOF` again. -/
theorem c10_next_token_idempotent_at_end (l : Lexer) (h : l.input.length ≤ l.position) :
    next_token l = .ok (Token.eof, l) := by
  have hskip : skip_whitespace l = l := by
    unfold skip_whitespace
    have h0 : l.input.length - l.position = 0 := by omega
    rw [h0]
    rfl
  simp only [next_token, hskip]
  rw [next_char_none (by omega)]

/-- Witness for C10 at a lexer state whose cursor has consumed the input. -/
theorem c10_witness : next_token ⟨['a'], 1⟩ = .ok (Token.eof, (⟨['a'], 1⟩ : Lexer)) :=
  c10_next_token_idempotent_at_end ⟨['a'], 1⟩ (by decide)

/-! ### Parser claims -/

/-- The lexer, started at `l`, successively yields exactly the tokens `ts`,
ending in state `l2`. -/
inductive LexerYields : Lexer → List Token → Lexer → Prop
  | nil (l : Lexer) : LexerYields l [] l
  | cons {l l1 l2 : Lexer} {t : Token} {ts : List Token} :
      next_token l = .ok (t, l1) → LexerYields l1 ts l2 → LexerYields l (t :: ts) l2

/-- The tokens accepted by `parse_term`, with the AST leaf each produces. -/
def term_token : Token → Option ASTNode
  | .number v => some (.number v)
  | .identifier name => some (.variable name)
  | _ => none

/-- One operator/term step of the `parse_expression` loop: the operator
string, its token, and the following term token with its AST leaf. -/
structure OpTerm where
  op : String
  opTok : Token
  termTok : Token
  term : ASTNode

theorem term_token_inv {t : Token} {a : ASTNode} (h : term_token t = some a) :
    (∃ v, t = .number v ∧ a = .number v) ∨ (∃ s, t = .identifier s ∧ a = .variable s) := by
  cases t <;> simp_all [term_token]

theorem parse_term_ok {p : Parser} {a : ASTNode} {t1 : Token} {l1 : Lexer}
    (hterm : term_token p.current_token = some a)
    (hnt : next_token p.lexer = .ok (t1, l1)) :
    parse_term p = .ok (a, ⟨l1, t1⟩) := by
  rcases term_token_inv hterm with ⟨v, hcur, ha⟩ | ⟨s, hcur, ha⟩ <;> subst ha
  · unfold parse_term
    rw [hcur]
    dsimp only
    unfold eat
    rw [if_pos hcur, hnt]
  · unfold parse_term
    rw [hcur]
    dsimp only
    unfold eat
    rw [if_pos hcur, hnt]

theorem parse_expression_loop_foldl (stop : Token) (hstop : binop_string stop = none)
    (lf : Lexer) :
    ∀ (pairs : List OpTerm) (fuel : ℕ) (left : ASTNode) (p : Parser) (rest : List Token),
      (∀ x ∈ pairs, binop_string x.opTok = some x.op ∧ term_token x.termTok = some x.term) →
      pairs.length < fuel →
      pairs.flatMap (fun x => [x.opTok, x.termTok]) ++ [stop] = p.current_token :: rest →
      LexerYields p.lexer rest lf →
      parse_expression_loop fuel left p =
        .ok (pairs.foldl (fun l x => ASTNode.binaryOp l x.op x.term) left, ⟨lf, stop⟩) := by
  intro pairs
  induction pairs with
  | nil =>
    intro fuel left p rest hx hfuel hseq hy
    simp only [List.flatMap_nil, List.nil_append] at hseq
    injection hseq with hcur hrest
    subst hrest
    cases hy
    obtain ⟨n, rfl⟩ : ∃ n, fuel = n + 1 := ⟨fuel - 1, by omega⟩
    cases p
    dsimp only at hcur
    subst hcur
    unfold parse_expression_loop
    dsimp only
    rw [hstop]
    rfl
  | cons x pairs ih =>
    intro fuel left p rest hx hfuel hseq hy
    obtain ⟨hop, hterm⟩ := hx x (List.mem_cons_self x pairs)
    simp only [List.flatMap_cons, List.cons_append, List.nil_append,
      List.append_assoc] at hseq
    injection hseq with hcur hrest
    subst hrest
    cases hy with
    | cons hnt hy1 =>
      rename_i l1
      obtain ⟨n, rfl⟩ : ∃ n, fuel = n + 1 := ⟨fuel - 1, by omega⟩
      unfold parse_expression_loop
      rw [← hcur, hop]
      dsimp only
      unfold eat
      rw [if_pos hcur.symm, hnt]
      dsimp only
      rcases hl : pairs.flatMap (fun x => [x.opTok, x.termTok]) ++ [stop] with _ | ⟨y, ys⟩
      · exact absurd hl (by simp)
      · rw [hl] at hy1
        cases hy1 with
        | cons hnt2 hy2 =>
          rename_i l2
          rw [parse_term_ok (p := ⟨l1, x.termTok⟩) hterm hnt2]
          dsimp only
          rw [ih n (ASTNode.binaryOp left x.op x.term) ⟨l2, y⟩ ys
            (fun z hz => hx z (List.mem_cons_of_mem x hz))
            (by simp at hfuel ⊢; omega) (by rw [hl]) hy2]
          rfl

theorem parse_expression_foldl (stop : Token) (hstop : binop_string stop = none)
    (lf : Lexer) (pairs : List OpTerm)
    (hx : ∀ x ∈ pairs, binop_string x.opTok = some x.op ∧ term_token x.termTok = some x.term)
    (t0 : Token) (a0 : ASTNode) (hterm0 : term_token t0 = some a0)
    (p : Parser) (hcur : p.current_token = t0)
    (hy : LexerYields p.lexer (pairs.flatMap (fun x => [x.opTok, x.termTok]) ++ [stop]) lf)
    (fuel : ℕ) (hfuel : pairs.length < fuel) :
    parse_expression fuel p =
      .ok (pairs.foldl (fun l x => ASTNode.binaryOp l x.op x.term) a0, ⟨lf, stop⟩) := by
  rcases hl : pairs.flatMap (fun x => [x.opTok, x.termTok]) ++ [stop] with - | ⟨y, ys⟩
  · exact absurd hl (by simp)
  · rw [hl] at hy
    cases hy with
    | cons hnt hy1 =>
      rename_i l1
      unfold parse_expression
      rw [parse_term_ok (hcur ▸ hterm0) hnt]
      dsimp only
      exact parse_expression_loop_foldl stop hstop lf pairs fuel a0 ⟨l1, y⟩ ys hx hfuel
        (by rw [hl]) hy1

/-- C3: `parse_expression` applies no operator precedence: whenever the
upcoming tokens are a term followed by operator/term pairs drawn from
`+ - * /` and then a non-operator token, the resulting AST is the strict
left fold `BinaryOp(... BinaryOp(t0, op1, t1) ..., opn, tn)`, all four
operators binding equally; in particular `2 + 3 * 4` parses as
`BinaryOp("*", BinaryOp("+", Number 2, Number 3), Number 4)`. -/
theorem c3_no_operator_precedence :
    (∀ (stop : Token), binop_string stop = none →
      ∀ (lf : Lexer) (pairs : List OpTerm),
      (∀ x ∈ pairs, binop_string x.opTok = some x.op ∧ term_token x.termTok = some x.term) →
      ∀ (t0 : Token) (a0 : ASTNode), term_token t0 = some a0 →
      ∀ (p : Parser), p.current_token = t0 →
      LexerYields p.lexer (pairs.flatMap (fun x => [x.opTok, x.termTok]) ++ [stop]) lf →
      ∀ fuel : ℕ, pairs.length < fuel →
      parse_expression fuel p =
        .ok (pairs.foldl (fun l x => ASTNode.binaryOp l x.op x.term) a0, ⟨lf, stop⟩)) ∧
    Except.bind (Parser.new (Lexer.new "2 + 3 * 4")) (fun p => parse_expression 10 p) =
      .ok (.binaryOp (.binaryOp (.number 2) "+" (.number 3)) "*" (.number 4),
        ⟨⟨"2 + 3 * 4".toList, 9⟩, .eof⟩) := by
  constructor
  · intro stop hstop lf pairs hx t0 a0 h0 p hcur hy fuel hfuel
    exact parse_expression_foldl stop hstop lf pairs hx t0 a0 h0 p hcur hy fuel hfuel
  · rfl

/-- Witness for C3 on a one-term expression with an empty operator list. -/
theorem c3_witness :
    parse_expression 1 ⟨⟨[], 0⟩, Token.number 2⟩ =
      .ok (ASTNode.number 2, ⟨⟨[], 0⟩, Token.eof⟩) :=
  c3_no_operator_precedence.1 Token.eof rfl ⟨[], 0⟩ []
    (fun x hx => absurd hx (List.not_mem_nil x))
    (Token.number 2) (ASTNode.number 2) rfl ⟨⟨[], 0⟩, Token.number 2⟩ rfl
    (LexerYields.cons (by decide) (LexerYields.nil ⟨[], 0⟩)) 1 (by decide)

/-! ### Variable collector claims -/

/-- Structural induction principle for `ASTNode` giving the hypothesis for
every member of the `if_` branch lists. -/
theorem ASTNode.my_induct (P : ASTNode → Prop)
    (ha : ∀ v e, P e → P (.assignment v e))
    (hb : ∀ l op r, P l → P r → P (.binaryOp l op r))
    (hn : ∀ v, P (.number v))
    (hv : ∀ s, P (.variable s))
    (hp : ∀ e, P e → P (.print e))
    (hi : ∀ c tb eb, P c → (∀ n ∈ tb, P n) → (∀ n ∈ eb, P n) → P (.if_ c tb eb)) :
    ∀ n, P n
  | .assignment v e => ha v e (ASTNode.my_induct P ha hb hn hv hp hi e)
  | .binaryOp l op r =>
    hb l op r (ASTNode.my_induct P ha hb hn hv hp hi l)
      (ASTNode.my_induct P ha hb hn hv hp hi r)
  | .number v => hn v
  | .variable s => hv s
  | .print e => hp e (ASTNode.my_induct P ha hb hn hv hp hi e)
  | .if_ c tb eb =>
    hi c tb eb (ASTNode.my_induct P ha hb hn hv hp hi c)
      (fun n hn' => have := List.sizeOf_lt_of_mem hn'
        ASTNode.my_induct P ha hb hn hv hp hi n)
      (fun n hn' => have := List.sizeOf_lt_of_mem hn'
        ASTNode.my_induct P ha hb hn hv hp hi n)
termination_by n => sizeOf n
decreasing_by all_goals (simp_wf <;> omega)

mutual

/-- Modelled from the spec: the name-occurrence sequence of a left-to-right
depth-first traversal visiting `Assignment.variable` and recursing into
`BinaryOp` operands and `If` condition/branches. -/
def spec_occurrences : ASTNode → List String
  | .assignment v _ => [v]
  | .binaryOp l _ r => spec_occurrences l ++ spec_occurrences r
  | .if_ c tb eb =>
    spec_occurrences c ++ spec_occurrences_list tb ++ spec_occurrences_list eb
  | _ => []

/-- The traversal over a statement list. -/
def spec_occurrences_list : List ASTNode → List String
  | [] => []
  | n :: ns => spec_occurrences n ++ spec_occurrences_list ns

end

/-- Append a name unless already present (first-occurrence policy). -/
def insert_if_absent (vars : List String) (v : String) : List String :=
  if v ∈ vars then vars else vars ++ [v]

/-- First-occurrence deduplication of a name sequence. -/
def dedup_first (l : List String) : List String :=
  l.foldl insert_if_absent []

theorem collect_list_eq_of (ns : List ASTNode)
    (h : ∀ n ∈ ns, ∀ vars,
      collect_variables n vars = (spec_occurrences n).foldl insert_if_absent vars) :
    ∀ vars, collect_variables_list ns vars =
      (spec_occurrences_list ns).foldl insert_if_absent vars := by
  induction ns with
  | nil => intro vars; rfl
  | cons n ns ih =>
    intro vars
    simp only [collect_variables_list, spec_occurrences_list, List.foldl_append]
    rw [h n (List.mem_cons_self n ns), ih (fun m hm => h m (List.mem_cons_of_mem _ hm))]

theorem collect_eq_spec : ∀ (node : ASTNode) (vars : List String),
    collect_variables node vars = (spec_occurrences node).foldl insert_if_absent vars := by
  refine ASTNode.my_induct
    (fun n => ∀ vars,
      collect_variables n vars = (spec_occurrences n).foldl insert_if_absent vars)
    ?_ ?_ ?_ ?_ ?_ ?_
  · intro v e _ vars
    rfl
  · intro l op r hl hr vars
    simp only [collect_variables, spec_occurrences, List.foldl_append, hl, hr]
  · intro v vars; rfl
  · intro s vars; rfl
  · intro e _ vars; rfl
  · intro c tb eb hc htb heb vars
    simp only [collect_variables, spec_occurrences, List.foldl_append, hc]
    rw [collect_list_eq_of tb htb, collect_list_eq_of eb heb]

theorem insert_if_absent_nodup {vars : List String} (h : vars.Nodup) (v : String) :
    (insert_if_absent vars v).Nodup := by
  unfold insert_if_absent
  split_ifs with hv
  · exact h
  · simp [List.nodup_append, h, hv]

theorem foldl_insert_nodup (l : List String) :
    ∀ vars : List String, vars.Nodup → (l.foldl insert_if_absent vars).Nodup := by
  induction l with
  | nil => exact fun vars h => h
  | cons a l ih => exact fun vars h => ih _ (insert_if_absent_nodup h a)

/-- C5: the Variable Collector returns exactly the first-occurrence
deduplication of the depth-first occurrence sequence described by the
specification; its output is duplicate-free, and a program with no variable
references yields the empty sequence. -/
theorem c5_collector_first_occurrence_dedup :
    (∀ nodes : List ASTNode,
      collect_forest nodes = dedup_first (spec_occurrences_list nodes)) ∧
    (∀ nodes : List ASTNode, (collect_forest nodes).Nodup) ∧
    (∀ nodes : List ASTNode, spec_occurrences_list nodes = [] → collect_forest nodes = []) := by
  have hmain : ∀ nodes : List ASTNode,
      collect_forest nodes = dedup_first (spec_occurrences_list nodes) := by
    intro nodes
    unfold collect_forest dedup_first
    exact collect_list_eq_of nodes (fun n _ => collect_eq_spec n) []
  refine ⟨hmain, ?_, ?_⟩
  · intro nodes
    rw [hmain]
    exact foldl_insert_nodup _ [] List.nodup_nil
  · intro nodes h
    rw [hmain, h]
    rfl

/-- Witness for C5 on a program with no variable references. -/
theorem c5_witness : collect_forest [ASTNode.print (ASTNode.number 1)] = [] :=
  c5_collector_first_occurrence_dedup.2.2 [ASTNode.print (ASTNode.number 1)] rfl

mutual

/-- `x` is the target variable of some `Assignment` node anywhere in the
tree (all positions, including assignment values and print arguments). -/
def assigns_var : ASTNode → String → Bool
  | .assignment v e, x => v == x || assigns_var e x
  | .binaryOp l _ r, x => assigns_var l x || assigns_var r x
  | .print e, x => assigns_var e x
  | .if_ c tb eb, x => assigns_var c x || assigns_list tb x || assigns_list eb x
  | _, _ => false

/-- `assigns_var` over a statement list. -/
def assigns_list : List ASTNode → String → Bool
  | [], _ => false
  | n :: ns, x => assigns_var n x || assigns_list ns x

end

theorem collect_mem_assigns :
    ∀ (node : ASTNode) (vars : List String) (x : String),
      x ∈ collect_variables node vars → x ∈ vars ∨ assigns_var node x = true := by
  refine ASTNode.my_induct
    (fun n => ∀ vars x, x ∈ collect_variables n vars → x ∈ vars ∨ assigns_var n x = true)
    ?_ ?_ ?_ ?_ ?_ ?_
  · intro v e _ vars x hx
    unfold collect_variables at hx
    split_ifs at hx with hmem
    · exact Or.inl hx
    · rcases List.mem_append.mp hx with h1 | h1
      · exact Or.inl h1
      · simp only [List.mem_singleton] at h1
        subst h1
        exact Or.inr (by simp [assigns_var])
  · intro l op r hl hr vars x hx
    unfold collect_variables at hx
    rcases hr _ x hx with h1 | h1
    · rcases hl vars x h1 with h2 | h2
      · exact Or.inl h2
      · exact Or.inr (by simp [assigns_var, h2])
    · exact Or.inr (by simp [assigns_var, h1])
  · intro v vars x hx; exact Or.inl hx
  · intro s vars x hx; exact Or.inl hx
  · intro e _ vars x hx; exact Or.inl hx
  · intro c tb eb hc htb heb vars x hx
    unfold collect_variables at hx
    have hlist : ∀ (ns : List ASTNode),
        (∀ n ∈ ns, ∀ vars x, x ∈ collect_variables n vars →
          x ∈ vars ∨ assigns_var n x = true) →
        ∀ vars x, x ∈ collect_variables_list ns vars →
          x ∈ vars ∨ assigns_list ns x = true := by
      intro ns
      induction ns with
      | nil => intro _ vars x hx; exact Or.inl hx
      | cons n ns ih =>
        intro h vars x hx
        rcases ih (fun m hm => h m (List.mem_cons_of_mem _ hm)) _ x hx with h1 | h1
        · rcases h n (List.mem_cons_self n ns) vars x h1 with h2 | h2
          · exact Or.inl h2
          · exact Or.inr (by simp [assigns_list, h2])
        · exact Or.inr (by simp [assigns_list, h1])
    rcases hlist eb heb _ x hx with h1 | h1
    · rcases hlist tb htb _ x h1 with h2 | h2
      · rcases hc vars x h2 with h3 | h3
        · exact Or.inl h3
        · exact Or.inr (by simp [assigns_var, h3])
      · exact Or.inr (by simp [assigns_var, h2])
    · exact Or.inr (by simp [assigns_var, h1])

/-- C4: every name collected by the Variable Collector is the target of
some `Assignment` node; the traversal never descends into an `Assignment`
value or a `Print` expression, so a name occurring only in read positions
(for example only inside a print argument) is absent from the list and gets
no storage-slot declaration in the emitted header. -/
theorem c4_collector_only_assignment_targets :
    (∀ (nodes : List ASTNode) (v : String),
      v ∈ collect_forest nodes → assigns_list nodes v = true) ∧
    collect_forest [.assignment "x" (.number 5), .print (.variable "y")] = ["x"] ∧
    "y resq 1" ∉ (emit_header (collect_forest
      [.assignment "x" (.number 5), .print (.variable "y")]) ⟨0, []⟩).output ∧
    collect_forest [.assignment "x" (.assignment "w" (.number 1))] = ["x"] ∧
    collect_forest [.print (.assignment "w" (.number 1))] = [] := by
  refine ⟨?_, by decide, by decide, by decide, by decide⟩
  intro nodes v hv
  have hlist : ∀ (ns : List ASTNode) (vars x),
      x ∈ collect_variables_list ns vars → x ∈ vars ∨ assigns_list ns x = true := by
    intro ns
    induction ns with
    | nil => intro vars x hx; exact Or.inl hx
    | cons n ns ih =>
      intro vars x hx
      rcases ih _ x hx with h1 | h1
      · rcases collect_mem_assigns n vars x h1 with h2 | h2
        · exact Or.inl h2
        · exact Or.inr (by simp [assigns_list, h2])
      · exact Or.inr (by simp [assigns_list, h1])
  rcases hlist nodes [] v hv with h | h
  · exact absurd h (List.not_mem_nil v)
  · exact h

/-- Witness for C4 at a one-assignment program. -/
theorem c4_witness : assigns_list [ASTNode.assignment "x" (ASTNode.number 5)] "x" = true :=
  c4_collector_only_assignment_targets.1 [ASTNode.assignment "x" (ASTNode.number 5)] "x"
    (by decide)

/-! ### Code generator claims -/

theorem emit_label (s : String) (g : CodeGenState) :
    (emit s g).label_counter = g.label_counter := rfl

theorem emits_label (ls : List String) : ∀ g, (emits ls g).label_counter = g.label_counter := by
  induction ls with
  | nil => intro g; rfl
  | cons a ls ih =>
    intro g
    show (emits ls (emit a g)).label_counter = g.label_counter
    rw [ih]
    rfl

theorem emits_output (ls : List String) : ∀ g, (emits ls g).output = g.output ++ ls := by
  induction ls with
  | nil => intro g; simp [emits]
  | cons a ls ih =>
    intro g
    show (emits ls (emit a g)).output = g.output ++ a :: ls
    rw [ih]
    simp [emit]

set_option maxHeartbeats 1000000 in
theorem generate_counter_mono :
    ∀ (node : ASTNode) (g g' : CodeGenState),
      generate node g = .ok g' → g.label_counter ≤ g'.label_counter := by
  refine ASTNode.my_induct
    (fun node => ∀ g g', generate node g = .ok g' → g.label_counter ≤ g'.label_counter)
    ?_ ?_ ?_ ?_ ?_ ?_
  · intro v e ih g g' h
    unfold generate at h
    cases he : generate e g with
    | error e' => rw [he] at h; exact Except.noConfusion h
    | ok g1 =>
      rw [he] at h
      simp only [Except.ok.injEq] at h
      subst h
      simpa only [emit_label] using ih g g1 he
  · intro l op r hl hr g g' h
    unfold generate at h
    cases hR : generate r g with
    | error e' => rw [hR] at h; exact Except.noConfusion h
    | ok g1 =>
      rw [hR] at h
      dsimp only at h
      cases hL : generate l (emit "    push rax" g1) with
      | error e' => rw [hL] at h; exact Except.noConfusion h
      | ok g2 =>
        rw [hL] at h
        dsimp only at h
        have c1 : g.label_counter ≤ g1.label_counter := hr g g1 hR
        have c2 : (emit "    push rax" g1).label_counter = g1.label_counter := rfl
        have c3 : (emit "    push rax" g1).label_counter ≤ g2.label_counter := hl _ g2 hL
        split_ifs at h <;>
          first
          | (simp only [Except.ok.injEq] at h; subst h;
             simp only [emit_label, emits_label]; omega)
          | exact Except.noConfusion h
  · intro v g g' h
    unfold generate at h
    simp only [Except.ok.injEq] at h
    subst h
    exact le_of_eq rfl
  · intro s g g' h
    unfold generate at h
    simp only [Except.ok.injEq] at h
    subst h
    exact le_of_eq rfl
  · intro e ih g g' h
    unfold generate at h
    cases he : generate e g with
    | error e' => rw [he] at h; exact Except.noConfusion h
    | ok g1 =>
      rw [he] at h
      simp only [Except.ok.injEq] at h
      subst h
      simpa only [emits_label] using ih g g1 he
  · intro c tb eb hc htb heb g g' h
    have hlist : ∀ (ns : List ASTNode),
        (∀ n ∈ ns, ∀ g g', generate n g = .ok g' → g.label_counter ≤ g'.label_counter) →
        ∀ g g', generate_list ns g = .ok g' → g.label_counter ≤ g'.label_counter := by
      intro ns
      induction ns with
      | nil =>
        intro _ g g' h
        unfold generate_list at h
        simp only [Except.ok.injEq] at h
        subst h
        exact le_refl _
      | cons n ns ih =>
        intro hmem g g' h
        unfold generate_list at h
        cases hg : generate n g with
        | error e' => rw [hg] at h; exact Except.noConfusion h
        | ok g1 =>
          rw [hg] at h
          exact le_trans (hmem n (List.mem_cons_self n ns) g g1 hg)
            (ih (fun m hm => hmem m (List.mem_cons_of_mem _ hm)) g1 g' h)
    unfold generate at h
    cases hC : generate c g with
    | error e' => rw [hC] at h; exact Except.noConfusion h
    | ok g1 =>
      rw [hC] at h
      simp only [new_label] at h
      split at h
      · exact Except.noConfusion h
      · rename_i g5 hT
        split at h
        · exact Except.noConfusion h
        · rename_i g7 hE
          simp only [Except.ok.injEq] at h
          subst h
          have k1 : g.label_counter ≤ g1.label_counter := hc g g1 hC
          have k2 := hlist tb htb _ g5 hT
          have k3 := hlist eb heb _ g7 hE
          simp only [emit_label] at k2 k3
          simp only [emit_label]
          omega

/-- C6: a fresh label is the fixed prefix, an underscore, and the
incremented counter value, the counter strictly increasing with each label;
`generate` never decreases the counter, so labels within one compilation
never collide; two sibling `if` statements receive the distinct,
monotonically increasing labels `else_1`/`end_if_2` and `else_3`/`end_if_4`. -/
theorem c6_labels_unique_monotone :
    (∀ (pre : String) (g : CodeGenState),
      new_label pre g = (pre ++ "_" ++ toString (g.label_counter + 1),
        { g with label_counter := g.label_counter + 1 })) ∧
    (∀ (node : ASTNode) (g g' : CodeGenState),
      generate node g = .ok g' → g.label_counter ≤ g'.label_counter) ∧
    generate_list [.if_ (.number 1) [] [], .if_ (.number 1) [] []] ⟨0, []⟩ =
      .ok ⟨4, ["    mov rax, 1", "    cmp rax, 0", "    je else_1", "    jmp end_if_2",
        "else_1:", "end_if_2:",
        "    mov rax, 1", "    cmp rax, 0", "    je else_3", "    jmp end_if_4",
        "else_3:", "end_if_4:"]⟩ := by
  refine ⟨fun pre g => rfl, generate_counter_mono, by decide⟩

/-- Witness for C6: the counter after generating one `if` statement. -/
theorem c6_witness :
    (⟨0, []⟩ : CodeGenState).label_counter ≤
      (⟨2, ["    mov rax, 1", "    cmp rax, 0", "    je else_1", "    jmp end_if_2",
        "else_1:", "end_if_2:"]⟩ : CodeGenState).label_counter :=
  c6_labels_unique_monotone.2.1 (.if_ (.number 1) [] []) _ _ (by decide)

theorem rat_trunc_bounds {v : ℚ} (h1 : -(2 ^ 63) ≤ v) (h2 : v < 2 ^ 63) :
    -(2 ^ 63) ≤ rat_trunc v ∧ rat_trunc v ≤ 2 ^ 63 - 1 := by
  unfold rat_trunc
  split_ifs with h0
  · constructor
    · have hge : (0 : ℤ) ≤ ⌊v⌋ := Int.floor_nonneg.mpr h0
      omega
    · have hlt : ⌊v⌋ < 2 ^ 63 := by
        rw [Int.floor_lt]
        push_cast
        exact h2
      omega
  · constructor
    · have hv : ((-(2 ^ 63) : ℤ) : ℚ) ≤ v := by push_cast; exact h1
      have hle : ((-(2 ^ 63) : ℤ) : ℚ) ≤ (⌈v⌉ : ℚ) := le_trans hv (Int.le_ceil v)
      exact_mod_cast hle
    · have hce : ⌈v⌉ ≤ (0 : ℤ) := Int.ceil_le.mpr (by push_cast; exact le_of_not_le h0)
      omega

/-- C7: for every `Number(v)` node the generator emits one instruction that
loads the 64-bit integer truncation toward zero of `v` into the primary
register (within the `i64` range the saturating `as i64` cast is exactly
truncation toward zero; the fractional part is discarded). -/
theorem c7_number_truncated_toward_zero :
    (∀ (v : ℚ) (g : CodeGenState), -(2 ^ 63) ≤ v → v < 2 ^ 63 →
      generate (.number v) g =
        .ok { g with output := g.output ++ ["    mov rax, " ++ toString (rat_trunc v)] }) ∧
    (∀ v : ℚ, -(2 ^ 63) ≤ v → v < 2 ^ 63 → f64_as_i64 v = rat_trunc v) := by
  have hcast : ∀ v : ℚ, -(2 ^ 63) ≤ v → v < 2 ^ 63 → f64_as_i64 v = rat_trunc v := by
    intro v h1 h2
    obtain ⟨hlo, hhi⟩ := rat_trunc_bounds h1 h2
    unfold f64_as_i64
    omega
  refine ⟨?_, hcast⟩
  intro v g h1 h2
  unfold generate
  rw [hcast v h1 h2]
  rfl

/-- Witness for C7 at `v = 7/2`: the emitted operand is `3`. -/
theorem c7_witness :
    generate (.number (7 / 2)) ⟨0, []⟩ =
      .ok (⟨0, [] ++ ["    mov rax, " ++ toString (rat_trunc (7 / 2))]⟩ : CodeGenState) ∧
    toString (rat_trunc ((7 : ℚ) / 2)) = "3" :=
  by
  refine ⟨c7_number_truncated_toward_zero.1 (7 / 2) ⟨0, []⟩ (by norm_num) (by norm_num), ?_⟩
  have h3 : rat_trunc ((7 : ℚ) / 2) = 3 := by
    unfold rat_trunc
    rw [if_pos (by norm_num)]
    rw [show ⌊(7 : ℚ) / 2⌋ = (3 : ℤ) from by rw [Int.floor_eq_iff] <;> norm_num]
  rw [h3]
  rfl

/-- C1 (observed behaviour, contradicting the claim): for a `/` operator the
generator emits, after the operand sequence, exactly `xor rdx, rdx` and
`div rbx` — no comparison of the divisor register against zero and no
conditional branch — and `emit_footer` emits exactly the status-0 exit
sequence followed by the decimal-conversion subroutine: it contains no
division-by-zero handler, no error-message write and no nonzero exit. -/
theorem c1_no_division_guard :
    generate (.binaryOp (.variable "x") "/" (.variable "y")) ⟨0, []⟩ =
      .ok ⟨0, ["    mov rax, [y]", "    push rax", "    mov rax, [x]", "    pop rbx",
        "    xor rdx, rdx", "    div rbx"]⟩ ∧
    (emit_footer ⟨0, []⟩).output =
      ["    mov rax, 60       ; syscall: exit",
       "    xor rdi, rdi      ; return code: 0",
       "    syscall",
       "; Subroutine to convert an integer in RAX to a string in the buffer",
       "int_to_string:",
       "    xor rdx, rdx              ; Clear rdx (remainder)",
       "    mov rbx, 10               ; Divisor for decimal system",
       "    add rcx, 20               ; Move pointer to the end of the buffer",
       "    dec rcx                   ; Reserve space for the last character",
       ".convert_loop:",
       "    xor rdx, rdx              ; Clear rdx before division",
       "    div rbx                   ; Divide rax by 10, remainder in rdx",
       "    add dl, '0'               ; Convert remainder to ASCII",
       "    mov [rcx], dl             ; Store the ASCII character in the buffer",
       "    dec rcx                   ; Move to the previous position in the buffer",
       "    test rax, rax             ; Check if quotient is 0",
       "    jnz .convert_loop         ; Repeat if not 0",
       "    inc rcx                   ; Adjust pointer to the start of the string",
       "    ret"] := by
  exact ⟨by decide, by decide⟩

/-- C2 (observed behaviour, contradicting the claim): for every
variable-name list the header is the `.bss` section with one 64-bit slot
per name and the fixed 20-byte buffer, then a `.data` section containing
only the single-byte newline constant — no error-message constant and no
computed length — then the `.text` entry point. -/
theorem c2_header_has_no_error_constant :
    (∀ (vars : List String) (g : CodeGenState),
      (emit_header vars g).output = g.output ++
        ["section .bss"] ++ vars.map (fun v => v ++ " resq 1") ++
        ["buffer resb 20", "section .data", "newline db 0xA, 0",
         "section .text", "global _start", "_start:"]) ∧
    (emit_header ["x"] ⟨0, []⟩).output =
      ["section .bss", "x resq 1", "buffer resb 20", "section .data",
       "newline db 0xA, 0", "section .text", "global _start", "_start:"] := by
  have hgen : ∀ (vars : List String) (g : CodeGenState),
      (emit_header vars g).output = g.output ++
        ["section .bss"] ++ vars.map (fun v => v ++ " resq 1") ++
        ["buffer resb 20", "section .data", "newline db 0xA, 0",
         "section .text", "global _start", "_start:"] := by
    intro vars g
    unfold emit_header
    rw [emits_output]
    simp
  exact ⟨hgen, by rw [hgen]; rfl⟩

end Viper
